import Mathlib

/-!
Shallow embedding of `vm-virtio/src/console.rs` (virtio-console device
backend) and proofs about its descriptor-chain processors, feature
negotiation, activation lifecycle and event-loop dispatch.

Byte values are modelled as `Nat`; machine-integer widths are irrelevant to
the properties proved here except where noted (`u32`/`u64` feature pages use
explicit `% 2^32` / masks).  Fallible operations return `Option`, with
`none` standing for a Rust panic.
-/

set_option autoImplicit false

namespace Console

/-- Modelled from the spec: a descriptor chain yielded by the external
virtqueue iterator (`Queue::iter`), "yielding chain index/address/length in
driver order".  The queue primitive itself is out of scope; an invocation's
worth of available chains is passed as a list, bounded by the ring size. -/
structure DescChain where
  index : Nat
  addr : Nat
  len : Nat
deriving DecidableEq

/-- Constant `QUEUE_SIZE: u16 = 256` — ring bound, also the size of the
`used_desc_heads` stack array in both processors. -/
def QUEUE_SIZE : Nat := 256

/-- Constant `NUM_QUEUES: usize = 2`. -/
def NUM_QUEUES : Nat := 2

/-- Rust `VecDeque::drain(a..b)`: removes the elements at positions `[a, b)` and
returns them; panics (`none`) when the range is invalid (`a > b` or
`b > len`). -/
def drainRange (buf : List Nat) (a b : Nat) : Option (List Nat × List Nat) :=
  if a ≤ b ∧ b ≤ buf.length then
    some ((buf.drop a).take (b - a), buf.take a ++ buf.drop b)
  else
    none

/-- Result of one invocation of `process_input_queue`:
the `in_buffer` contents afterwards, the `(index, len)` pairs passed to
`add_used` in order, the successful guest-memory writes `(addr, bytes)` in
order, and the returned boolean (`used_count > 0`). -/
structure InputResult where
  buffer : List Nat
  used : List (Nat × Nat)
  writes : List (Nat × List Nat)
  ret : Bool
deriving DecidableEq

/-- The `for avail_desc in recv_queue.iter(...)` loop of
`process_input_queue`.  `wr addr n` tells whether
`mem.write_slice(&slice, addr)` with a slice of length `n` succeeds
(guest memory is external: a bounds-checked write that can fail).
State: remaining chains, current buffer, `write_count`, accumulated
`used_desc_heads[..used_count]` and successful writes.  `none` is a panic
(out-of-range `drain`, or `used_desc_heads` index past `QUEUE_SIZE`). -/
def processInputLoop (wr : Nat → Nat → Bool) (count : Nat) :
    List DescChain → List Nat → Nat → List (Nat × Nat) → List (Nat × List Nat) →
    Option (List Nat × List (Nat × Nat) × List (Nat × List Nat))
  | [], buf, _, used, writes => some (buf, used, writes)
  | c :: rest, buf, wc, used, writes =>
    let limit := min (wc + c.len) count
    match drainRange buf wc limit with
    | none => none
    | some (slice, buf') =>
      if wr c.addr slice.length then
        if used.length < QUEUE_SIZE then
          let used' := used ++ [(c.index, limit - wc)]
          let writes' := writes ++ [(c.addr, slice)]
          if count ≤ limit then
            some (buf', used', writes')
          else
            processInputLoop wr count rest buf' limit used' writes'
        else
          none
      else
        some (buf', used, writes)

/-- Embeds `ConsoleEpollHandler::process_input_queue`, as a function of the
`in_buffer` snapshot and the receive queue's currently available chains.
`count = in_buffer.len()`; after the loop every recorded head is passed to
`add_used` in order, and `used_count > 0` is returned. -/
def process_input_queue (wr : Nat → Nat → Bool) (inBuffer : List Nat)
    (chains : List DescChain) : Option InputResult :=
  match processInputLoop wr inBuffer.length chains inBuffer 0 [] [] with
  | none => none
  | some (buf, used, writes) => some ⟨buf, used, writes, !used.isEmpty⟩

/-- Result of one invocation of `process_output_queue`: `(index, len)` pairs
passed to `add_used` in order, the bytes that reached the output sink, the
number of `flush` calls, and the returned boolean. -/
structure OutputResult where
  used : List (Nat × Nat)
  sink : List Nat
  flushes : Nat
  ret : Bool
deriving DecidableEq

/-- The `for avail_desc in trans_queue.iter(...)` loop of
`process_output_queue`.  `rd addr n` gives the bytes that
`mem.write_to(addr, out, n)` actually transfers to the sink for a chain of
address `addr` and length `n` — an arbitrary oracle, since both the
`write_to` result and the `flush` result are discarded (`let _ = ...`).
`none` is a panic (`used_desc_heads` index past `QUEUE_SIZE`). -/
def processOutputLoop (rd : Nat → Nat → List Nat) :
    List DescChain → List (Nat × Nat) → List Nat → Nat →
    Option (List (Nat × Nat) × List Nat × Nat)
  | [], used, sink, fl => some (used, sink, fl)
  | c :: rest, used, sink, fl =>
    let transferred := rd c.addr c.len
    if used.length < QUEUE_SIZE then
      processOutputLoop rd rest (used ++ [(c.index, c.len)]) (sink ++ transferred) (fl + 1)
    else
      none

/-- Embeds `ConsoleEpollHandler::process_output_queue`, as a function of the
transmit queue's currently available chains and the guest-memory/sink
transfer oracle. -/
def process_output_queue (rd : Nat → Nat → List Nat) (chains : List DescChain) :
    Option OutputResult :=
  match processOutputLoop rd chains [] [] 0 with
  | none => none
  | some (used, sink, fl) => some ⟨used, sink, fl, !used.isEmpty⟩

/-- Embeds `ConsoleInput::queue_input_bytes`: append the injected bytes to the
shared buffer (and signal the input event, modelled in the dispatcher). -/
def queue_input_bytes (inBuffer : List Nat) (input : List Nat) : List Nat :=
  inBuffer ++ input

/-- Modelled from the spec: `VIRTIO_F_VERSION_1` (imported from the crate
root, not under `src/`) is the virtio "version 1" feature bit, bit 32. -/
def VIRTIO_F_VERSION_1 : Nat := 32

/-- From `Console::new`: `avail_features = 1u64 << VIRTIO_F_VERSION_1`. -/
def avail_features : Nat := 2 ^ VIRTIO_F_VERSION_1

/-- Bitwise complement of a `u64` value (`!x` in Rust for `x < 2^64`). -/
def compl64 (x : Nat) : Nat := (2 ^ 64 - 1) ^^^ x

/-- The page-shifted `u64` value `v` computed at the top of `ack_features`:
`u64::from(value)` for page 0, `u64::from(value) << 32` for page 1, `0`
otherwise.  The `% 2^32` embeds the `u32` type of `value`. -/
def pageValue (page value : Nat) : Nat :=
  match page with
  | 0 => value % 2 ^ 32
  | 1 => value % 2 ^ 32 * 2 ^ 32
  | _ => 0

/-- Embeds `Console::ack_features` acting on the `acked_features` field:
requested bits not present in `avail_features` are masked out, the rest are
or-ed into the accumulator. -/
def ack_features (acked page value : Nat) : Nat :=
  let v := pageValue page value
  let unrequested := v &&& compl64 avail_features
  let v' := if unrequested ≠ 0 then v &&& compl64 unrequested else v
  acked ||| v'

/-- Embeds `Console::features`: the low (`page` 0) or high (`page` 1) 32 bits of
`avail_features`, `0` for any other page. -/
def features (page : Nat) : Nat :=
  match page with
  | 0 => avail_features % 2 ^ 32
  | 1 => avail_features / 2 ^ 32 % 2 ^ 32
  | _ => 0

/-- Observable outcome of `Console::activate`: whether it returned `Ok`,
and whether the worker thread was spawned. -/
structure ActivateOutcome where
  ok : Bool
  threadSpawned : Bool
deriving DecidableEq

/-- Embeds `Console::activate`.  Inputs: the lengths of `queues` and `queue_evts`,
whether `self.out` still holds a sink (`hasOut`; `None` after a previous
activation took it), and whether the two fallible environment steps —
kill-`EventFd` creation and thread spawn — succeed. -/
def activate (nQueues nQueueEvts : Nat) (hasOut efdOk spawnOk : Bool) :
    ActivateOutcome :=
  if nQueues ≠ NUM_QUEUES ∨ nQueueEvts ≠ NUM_QUEUES then ⟨false, false⟩
  else if !efdOk then ⟨false, false⟩
  else if hasOut then
    if spawnOk then ⟨true, true⟩ else ⟨false, false⟩
  else ⟨false, false⟩

/-- What one arm of the `run` loop's `match ev_type` did: whether
`process_input_queue` ran, whether `process_output_queue` ran, whether the
interrupt signaller (`signal_used_queue`) was invoked, and whether the arm
breaks out of the epoll loop. -/
structure DispatchEffects where
  ranInputProc : Bool
  ranOutputProc : Bool
  signalled : Bool
  exitLoop : Bool
deriving DecidableEq

/-- One dispatch arm of `ConsoleEpollHandler::run` for event value `ev`
(`INPUT_QUEUE_EVENT = 0`, `OUTPUT_QUEUE_EVENT = 1`, `INPUT_EVENT = 2`,
`KILL_EVENT = 3`, anything else unknown).  `evtReadOk` is the outcome of the
arm's `EventFd::read`, `signalOk` the outcome of `signal_used_queue`.
Returns the effects and the `in_buffer` contents afterwards; `none` is a
panic inside a processor. -/
def dispatchEvent (wr : Nat → Nat → Bool) (rd : Nat → Nat → List Nat)
    (evtReadOk signalOk : Bool) (inBuffer : List Nat)
    (recvChains transChains : List DescChain) (ev : Nat) :
    Option (DispatchEffects × List Nat) :=
  match ev with
  | 0 =>
    some (⟨false, false, false, !evtReadOk⟩, inBuffer)
  | 1 =>
    if evtReadOk then
      match process_output_queue rd transChains with
      | none => none
      | some _ => some (⟨false, true, false, false⟩, inBuffer)
    else
      some (⟨false, false, false, true⟩, inBuffer)
  | 2 =>
    if evtReadOk then
      match process_input_queue wr inBuffer recvChains with
      | none => none
      | some r =>
        if r.ret then
          some (⟨true, false, true, !signalOk⟩, r.buffer)
        else
          some (⟨true, false, false, false⟩, r.buffer)
    else
      some (⟨false, false, false, true⟩, inBuffer)
  | 3 =>
    some (⟨false, false, false, true⟩, inBuffer)
  | _ =>
    some (⟨false, false, false, false⟩, inBuffer)

/-! ## Claim theorems -/

/-- C1.  The claim says delivery is FIFO without duplication or loss.  The
code violates it: `in_buffer.drain(write_count..limit)` indexes with
positions of the original buffer into a `VecDeque` already shortened by the
previous iterations' drains.  On buffer `[0x41, 0x42, 0x43]` with two
receive chains of length 1 (all writes succeeding), the bytes delivered to
guest memory are `0x41` then `0x43` — `0x42` is skipped and left behind —
instead of the FIFO order `0x41, 0x42` with `0x43` remaining. -/
theorem c1_fifo_delivery_bug :
    process_input_queue (fun _ _ => true) [65, 66, 67] [⟨0, 0, 1⟩, ⟨1, 8, 1⟩] =
      some ⟨[66], [(0, 1), (1, 1)], [(0, [65]), (8, [67])], true⟩ ∧
    [65, 67] ≠ [65, 66] := by
  exact ⟨by decide, by decide⟩

/-- C2.  The claim says no invocation panics (lock poisoning apart).  The
code violates it: with 3 buffered bytes and two receive chains of length 2,
the second iteration calls `drain(2..3)` on a `VecDeque` that only has 1
element left, which panics with an out-of-range drain (modelled as `none`). -/
theorem c2_no_panic_bug :
    process_input_queue (fun _ _ => true) [65, 66, 67] [⟨0, 0, 2⟩, ⟨1, 8, 2⟩] = none := by
  decide

/-- C3, counterexample.  The claim says that invoking the receive processor
on an empty channel performs no used-ring update, pops no chain and returns
false.  In the code, with an empty buffer and one available chain, the first
chain is popped, the zero-length write succeeds, the chain is marked used
with length 0, and the function returns true. -/
theorem c3_counterexample :
    process_input_queue (fun _ _ => true) [] [⟨7, 0, 4⟩] =
      some ⟨[], [(7, 0)], [(0, [])], true⟩ := by
  decide

/-- C3, amended.  With zero available chains, either processor performs no
used-ring update and returns false (and an empty channel leaves the buffer
unchanged); but invoking the receive processor on an empty channel with at
least one available chain (the zero-length guest write succeeding, as a
bounds-checked write of nothing does) marks exactly the first chain used
with length 0 and returns true. -/
theorem c3_idempotence_amended (wr : Nat → Nat → Bool) (rd : Nat → Nat → List Nat)
    (buf : List Nat) (c : DescChain) (rest : List DescChain)
    (h : wr c.addr 0 = true) :
    process_input_queue wr buf [] = some ⟨buf, [], [], false⟩ ∧
    process_output_queue rd [] = some ⟨[], [], 0, false⟩ ∧
    process_input_queue wr [] (c :: rest) =
      some ⟨[], [(c.index, 0)], [(c.addr, [])], true⟩ := by
  refine ⟨rfl, rfl, ?_⟩
  simp [process_input_queue, processInputLoop, drainRange, QUEUE_SIZE, h]

/-- Closed witness for `c3_idempotence_amended` at a concrete input. -/
theorem c3_witness :
    process_input_queue (fun _ _ => true) [4, 5] [] = some ⟨[4, 5], [], [], false⟩ ∧
    process_output_queue (fun _ _ => []) [] = some ⟨[], [], 0, false⟩ ∧
    process_input_queue (fun _ _ => true) [] [⟨9, 3, 2⟩] =
      some ⟨[], [(9, 0)], [(3, [])], true⟩ :=
  c3_idempotence_amended (fun _ _ => true) (fun _ _ => []) [4, 5] ⟨9, 3, 2⟩ [] rfl

/-- C8.  `Console::activate` returns a bad-activation failure and spawns no
worker thread whenever the number of queues or of per-queue notification
handles differs from 2, or no output sink is configured (as after a first
activation took it); no thread is left running in any of those cases,
whatever the outcome of kill-eventfd creation and thread spawning. -/
theorem c8_activate_failure (nQueues nQueueEvts : Nat) (hasOut efdOk spawnOk : Bool)
    (h : nQueues ≠ 2 ∨ nQueueEvts ≠ 2 ∨ hasOut = false) :
    activate nQueues nQueueEvts hasOut efdOk spawnOk = ⟨false, false⟩ := by
  unfold activate
  split_ifs with h1 h2 h3 h4 <;> try rfl
  simp only [NUM_QUEUES] at h1
  push_neg at h1
  rcases h with h | h | h
  · exact absurd h1.1 h
  · exact absurd h1.2 h
  · rw [h] at h3; exact absurd h3 (by decide)

/-- Closed witness for `c8_activate_failure`: activation with a single queue
fails and spawns nothing. -/
theorem c8_witness : activate 1 2 true true true = ⟨false, false⟩ :=
  c8_activate_failure 1 2 true true true (Or.inl (by decide))

/-- C10.  For every feature page other than 0 and 1, `features` returns 0
and `ack_features` leaves the accumulated acknowledged features unchanged. -/
theorem c10_unknown_page (page value acked : Nat) (h : 2 ≤ page) :
    features page = 0 ∧ ack_features acked page value = acked := by
  obtain ⟨k, rfl⟩ := Nat.exists_eq_add_of_le' h
  refine ⟨rfl, ?_⟩
  simp [ack_features, pageValue, compl64]

/-- Closed witness for `c10_unknown_page` at page 5. -/
theorem c10_witness : features 5 = 0 ∧ ack_features (2 ^ 32) 5 3 = 2 ^ 32 :=
  c10_unknown_page 5 3 (2 ^ 32) (by decide)

/-! ## Loop characterization lemmas -/

theorem isEmpty_map {α β : Type} (f : α → β) (l : List α) :
    (l.map f).isEmpty = l.isEmpty := by
  cases l <;> rfl

/-- Full characterization of the transmit loop when the ring bound holds:
every chain is appended to the used heads with its original length, the sink
receives the transferred bytes in chain order, and one flush happens per
chain — independently of the transfer oracle's outcomes. -/
theorem processOutputLoop_spec (rd : Nat → Nat → List Nat) :
    ∀ (chains : List DescChain) (used : List (Nat × Nat)) (sink : List Nat) (fl : Nat),
      used.length + chains.length ≤ QUEUE_SIZE →
      processOutputLoop rd chains used sink fl =
        some (used ++ chains.map (fun c => (c.index, c.len)),
          sink ++ (chains.map (fun c => rd c.addr c.len)).flatten, fl + chains.length) := by
  intro chains
  induction chains with
  | nil => intro used sink fl _; simp [processOutputLoop]
  | cons c rest ih =>
    intro used sink fl h
    have hq : used.length < QUEUE_SIZE := by
      simp only [List.length_cons] at h; omega
    have h' : (used ++ [(c.index, c.len)]).length + rest.length ≤ QUEUE_SIZE := by
      simp only [List.length_append, List.length_cons, List.length_nil] at h ⊢
      omega
    simp only [processOutputLoop, if_pos hq]
    rw [ih (used ++ [(c.index, c.len)]) (sink ++ rd c.addr c.len) (fl + 1) h']
    refine congrArg some ?_
    simp only [List.map_cons, List.flatten_cons, List.length_cons, Prod.mk.injEq]
    refine ⟨by simp, by simp, by omega⟩

/-- If the transmit loop returns at all, the used heads it produced are the
accumulator followed by one `(index, len)` entry per chain. -/
theorem processOutputLoop_used (rd : Nat → Nat → List Nat) :
    ∀ (chains : List DescChain) (used : List (Nat × Nat)) (sink : List Nat) (fl : Nat)
      (out : List (Nat × Nat) × List Nat × Nat),
      processOutputLoop rd chains used sink fl = some out →
      out.1 = used ++ chains.map (fun c => (c.index, c.len)) := by
  intro chains
  induction chains with
  | nil =>
    intro used sink fl out h
    simp only [processOutputLoop, Option.some.injEq] at h
    rw [← h]
    simp
  | cons c rest ih =>
    intro used sink fl out h
    simp only [processOutputLoop] at h
    by_cases hq : used.length < QUEUE_SIZE
    · rw [if_pos hq] at h
      rw [ih (used ++ [(c.index, c.len)]) (sink ++ rd c.addr c.len) (fl + 1) out h]
      simp
    · rw [if_neg hq] at h
      cases h

/-- If the receive loop returns at all, the used heads it appended match the
consumed chains one-for-one in order, each marked with a length no larger
than the chain's original length. -/
theorem processInputLoop_used (wr : Nat → Nat → Bool) (count : Nat) :
    ∀ (chains : List DescChain) (buf : List Nat) (wc : Nat)
      (used : List (Nat × Nat)) (writes : List (Nat × List Nat))
      (out : List Nat × List (Nat × Nat) × List (Nat × List Nat)),
      processInputLoop wr count chains buf wc used writes = some out →
      ∃ tail, out.2.1 = used ++ tail ∧
        List.Forall₂ (fun c (p : Nat × Nat) => p.1 = c.index ∧ p.2 ≤ c.len)
          (chains.take tail.length) tail := by
  intro chains
  induction chains with
  | nil =>
    intro buf wc used writes out h
    simp only [processInputLoop, Option.some.injEq] at h
    refine ⟨[], ?_, ?_⟩
    · rw [← h]; simp
    · simp
  | cons c rest ih =>
    intro buf wc used writes out h
    simp only [processInputLoop] at h
    split at h
    · cases h
    · rename_i slice buf' hdr
      split at h
      · split at h
        · split at h
          · simp only [Option.some.injEq] at h
            refine ⟨[(c.index, min (wc + c.len) count - wc)], ?_, ?_⟩
            · rw [← h]
            · simp only [List.length_cons, List.length_nil, List.take_succ_cons,
                List.take_zero]
              refine List.Forall₂.cons ⟨rfl, ?_⟩ List.Forall₂.nil
              have := min_le_left (wc + c.len) count
              omega
          · obtain ⟨tail, h1, h2⟩ := ih buf' (min (wc + c.len) count)
              (used ++ [(c.index, min (wc + c.len) count - wc)])
              (writes ++ [(c.addr, slice)]) out h
            refine ⟨(c.index, min (wc + c.len) count - wc) :: tail, ?_, ?_⟩
            · rw [h1]; simp
            · simp only [List.length_cons, List.take_succ_cons]
              refine List.Forall₂.cons ⟨rfl, ?_⟩ h2
              have := min_le_left (wc + c.len) count
              omega
        · cases h
      · simp only [Option.some.injEq] at h
        refine ⟨[], ?_, ?_⟩
        · rw [← h]; simp
        · simp

/-- C4, counterexample.  The claim says every chain yielded by the iterator
is added to the used ring exactly once before the function returns.  In the
code, a receive chain whose guest-memory write fails is yielded by the
iterator but never marked used: with buffer `[65]` and one chain (index 3)
whose write fails, the used list is empty. -/
theorem c4_counterexample :
    process_input_queue (fun _ _ => false) [65] [⟨3, 0, 1⟩] = some ⟨[], [], [], false⟩ := by
  decide

/-- C4, amended.  In any invocation that returns (no panic), the used-ring
entries correspond one-for-one, in order, to the chains consumed from the
iterator, each marked exactly once with a length never exceeding the chain's
original length; on the transmit path every available chain is marked with
exactly its original length, while on the receive path the marked chains are
the successfully completed ones — a chain whose write fails is yielded but
not marked. -/
theorem c4_used_marking_amended (wr : Nat → Nat → Bool) (rd : Nat → Nat → List Nat)
    (buf : List Nat) (chains tchains : List DescChain) (r : InputResult) (s : OutputResult)
    (hr : process_input_queue wr buf chains = some r)
    (hs : process_output_queue rd tchains = some s) :
    List.Forall₂ (fun c (p : Nat × Nat) => p.1 = c.index ∧ p.2 ≤ c.len)
      (chains.take r.used.length) r.used ∧
    s.used = tchains.map fun c => (c.index, c.len) := by
  constructor
  · unfold process_input_queue at hr
    split at hr
    · cases hr
    · rename_i b u w hl
      obtain ⟨tail, h1, h2⟩ := processInputLoop_used wr buf.length chains buf 0 [] [] (b, u, w) hl
      simp only [List.nil_append] at h1
      simp only [Option.some.injEq] at hr
      rw [← hr]
      simpa [h1] using h2
  · unfold process_output_queue at hs
    split at hs
    · cases hs
    · rename_i u sk fl hl
      have h1 := processOutputLoop_used rd tchains [] [] 0 (u, sk, fl) hl
      simp only [List.nil_append] at h1
      simp only [Option.some.injEq] at hs
      rw [← hs]
      exact h1

/-- Closed witness for `c4_used_marking_amended` at concrete inputs. -/
theorem c4_witness :
    List.Forall₂ (fun c (p : Nat × Nat) => p.1 = c.index ∧ p.2 ≤ c.len)
      (([⟨0, 0, 1⟩, ⟨1, 8, 1⟩] : List DescChain).take
        ([(0, 1), (1, 1)] : List (Nat × Nat)).length) [(0, 1), (1, 1)] ∧
    ([(5, 3)] : List (Nat × Nat)) =
      ([⟨5, 0, 3⟩] : List DescChain).map fun c => (c.index, c.len) :=
  c4_used_marking_amended (fun _ _ => true) (fun _ _ => []) [65, 66, 67]
    [⟨0, 0, 1⟩, ⟨1, 8, 1⟩] [⟨5, 0, 3⟩]
    ⟨[66], [(0, 1), (1, 1)], [(0, [65]), (8, [67])], true⟩
    ⟨[(5, 3)], [], 1, true⟩ (by decide) (by decide)

/-- C5.  For every behaviour of the guest-memory read and output sink (the
transfer oracle `rd` describes whatever bytes reach the sink, covering
failing writes and flushes, whose results the code discards), the transmit
processor marks every available chain used with its full original length,
flushes once per chain, never stops early, and returns true exactly when at
least one chain was processed.  The hypothesis is the ring bound: at most
`QUEUE_SIZE` chains are yielded per pass. -/
theorem c5_output_errors_ignored (rd : Nat → Nat → List Nat) (chains : List DescChain)
    (h : chains.length ≤ QUEUE_SIZE) :
    process_output_queue rd chains =
      some ⟨chains.map (fun c => (c.index, c.len)),
        (chains.map (fun c => rd c.addr c.len)).flatten,
        chains.length, !chains.isEmpty⟩ := by
  unfold process_output_queue
  rw [processOutputLoop_spec rd chains [] [] 0 (by simpa using h)]
  simp [isEmpty_map]

/-- Closed witness for `c5_output_errors_ignored`: the spec's end-to-end
scenario B, two transmit chains of lengths 4 and 6, ten bytes reaching the
sink in chain order, two flushes, both chains marked with full lengths. -/
theorem c5_witness :
    process_output_queue (fun _ n => List.replicate n 9) [⟨0, 0, 4⟩, ⟨1, 8, 6⟩] =
      some ⟨[(0, 4), (1, 6)], List.replicate 10 9, 2, true⟩ :=
  (c5_output_errors_ignored (fun _ n => List.replicate n 9) [⟨0, 0, 4⟩, ⟨1, 8, 6⟩]
    (by decide)).trans (by decide)

/-- Unfolding equation for one receive-loop iteration. -/
theorem processInputLoop_cons (wr : Nat → Nat → Bool) (count : Nat) (c : DescChain)
    (rest : List DescChain) (buf : List Nat) (wc : Nat)
    (used : List (Nat × Nat)) (writes : List (Nat × List Nat)) :
    processInputLoop wr count (c :: rest) buf wc used writes =
      match drainRange buf wc (min (wc + c.len) count) with
      | none => none
      | some (slice, buf') =>
        if wr c.addr slice.length then
          if used.length < QUEUE_SIZE then
            if count ≤ min (wc + c.len) count then
              some (buf', used ++ [(c.index, min (wc + c.len) count - wc)],
                writes ++ [(c.addr, slice)])
            else
              processInputLoop wr count rest buf' (min (wc + c.len) count)
                (used ++ [(c.index, min (wc + c.len) count - wc)])
                (writes ++ [(c.addr, slice)])
          else none
        else some (buf', used, writes) := rfl

/-- C6, counterexample.  The claim says that on a failed guest-memory write
all buffered bytes not yet delivered remain intact in the channel.  In the
code the bytes are drained from the `VecDeque` before the write is
attempted, and a failed write discards them: buffer `[65, 66]`, one chain of
length 2 whose write fails — nothing is delivered, no chain is marked, yet
the buffer is left empty. -/
theorem c6_counterexample :
    process_input_queue (fun _ _ => false) [65, 66] [⟨3, 0, 2⟩] =
      some ⟨[], [], [], false⟩ := by
  decide

/-- C6, amended.  If a guest-memory write fails during a receive-processor
invocation, iteration stops immediately: the failed chain is not marked
used, chains already completed in that invocation stay marked with their
recorded lengths — but the bytes drained for the failed write are discarded
from the shared buffer rather than retained; only the bytes outside the
drained ranges remain.  First conjunct: failure at the first offered chain
(no chain marked, the first `min(len, count)` bytes lost).  Second conjunct:
failure at the second chain after a successful first chain (the first chain
stays marked with its recorded length, the range `[l1, l2)` of the
shortened buffer is lost). -/
theorem c6_recv_error_amended :
    (∀ (wr : Nat → Nat → Bool) (buf : List Nat) (c : DescChain) (rest : List DescChain),
      wr c.addr (min c.len buf.length) = false →
      process_input_queue wr buf (c :: rest) =
        some ⟨buf.drop (min c.len buf.length), [], [], false⟩) ∧
    (∀ (wr : Nat → Nat → Bool) (buf : List Nat) (c1 c2 : DescChain)
      (rest : List DescChain) (l1 l2 : Nat),
      l1 = min c1.len buf.length →
      l2 = min (l1 + c2.len) buf.length →
      l1 < buf.length →
      l2 ≤ buf.length - l1 →
      wr c1.addr l1 = true →
      wr c2.addr (l2 - l1) = false →
      process_input_queue wr buf (c1 :: c2 :: rest) =
        some ⟨(buf.drop l1).take l1 ++ (buf.drop l1).drop l2,
          [(c1.index, l1)], [(c1.addr, buf.take l1)], true⟩) := by
  constructor
  · intro wr buf c rest h
    have hmin : min c.len buf.length ≤ buf.length := min_le_right _ _
    have hd : drainRange buf 0 (min (0 + c.len) buf.length) =
        some (buf.take (min c.len buf.length), buf.drop (min c.len buf.length)) := by
      rw [Nat.zero_add]
      unfold drainRange
      rw [if_pos ⟨Nat.zero_le _, hmin⟩]
      simp
    unfold process_input_queue
    rw [processInputLoop_cons, hd]
    simp only [List.length_take, min_eq_left hmin, h]
    simp
  · intro wr buf c1 c2 rest l1 l2 hl1e hl2e hlt hpan hw1 hw2
    have hle1 : l1 ≤ buf.length := le_of_lt hlt
    have hle12 : l1 ≤ l2 := by
      rw [hl2e]
      exact le_min (Nat.le_add_right _ _) hle1
    have hd1 : drainRange buf 0 (min (0 + c1.len) buf.length) =
        some (buf.take l1, buf.drop l1) := by
      rw [Nat.zero_add, ← hl1e]
      unfold drainRange
      rw [if_pos ⟨Nat.zero_le _, hle1⟩]
      simp
    have hlen1 : (buf.take l1).length = l1 := by
      rw [List.length_take, min_eq_left hle1]
    have hd2 : drainRange (buf.drop l1) l1 (min (l1 + c2.len) buf.length) =
        some (((buf.drop l1).drop l1).take (l2 - l1),
          (buf.drop l1).take l1 ++ (buf.drop l1).drop l2) := by
      rw [← hl2e]
      unfold drainRange
      rw [if_pos ⟨hle12, by rw [List.length_drop]; exact hpan⟩]
    have hlen2 : (((buf.drop l1).drop l1).take (l2 - l1)).length = l2 - l1 := by
      rw [List.length_take, List.length_drop, List.length_drop]
      exact min_eq_left (by omega)
    unfold process_input_queue
    rw [processInputLoop_cons, hd1]
    simp only [hlen1, hw1, if_true, Nat.zero_add, ← hl1e, Nat.sub_zero]
    rw [if_pos (by decide : ([] : List (Nat × Nat)).length < QUEUE_SIZE)]
    rw [if_neg (not_le.mpr hlt)]
    rw [processInputLoop_cons, hd2]
    simp only [hlen2, hw2]
    simp

/-- Closed witness for `c6_recv_error_amended`: a first-chain write failure
loses the two drained bytes; a second-chain failure keeps the first chain
marked and loses the drained byte. -/
theorem c6_witness :
    process_input_queue (fun _ _ => false) [1, 2, 3] [⟨0, 5, 2⟩] =
      some ⟨([1, 2, 3] : List Nat).drop (min 2 3), [], [], false⟩ ∧
    process_input_queue (fun a _ => a == 0) [1, 2, 3] [⟨0, 0, 1⟩, ⟨1, 8, 1⟩] =
      some ⟨(([1, 2, 3] : List Nat).drop 1).take 1 ++ (([1, 2, 3] : List Nat).drop 1).drop 2,
        [(0, 1)], [(0, ([1, 2, 3] : List Nat).take 1)], true⟩ :=
  ⟨c6_recv_error_amended.1 (fun _ _ => false) [1, 2, 3] ⟨0, 5, 2⟩ [] rfl,
   c6_recv_error_amended.2 (fun a _ => a == 0) [1, 2, 3] ⟨0, 0, 1⟩ ⟨1, 8, 1⟩ [] 1 2
     (by decide) (by decide) (by decide) (by decide) rfl rfl⟩

/-- Bit `j` of `x &&& compl64 y` for `x < 2^64` is bit `j` of `x` with bit
`j` of `y` masked away. -/
theorem land_compl64_testBit (x y : Nat) (hx : x < 2 ^ 64) (j : Nat) :
    (x &&& compl64 y).testBit j = (x.testBit j && !(y.testBit j)) := by
  by_cases hj : j < 64
  · rw [Nat.testBit_land, compl64, Nat.testBit_xor, Nat.testBit_two_pow_sub_one]
    simp [hj]
  · have hxj : x.testBit j = false :=
      Nat.testBit_eq_false_of_lt
        (lt_of_lt_of_le hx (Nat.pow_le_pow_right (by norm_num) (not_lt.1 hj)))
    simp [Nat.testBit_land, hxj]

/-- The page-shifted request value fits in 64 bits. -/
theorem pageValue_lt (page value : Nat) : pageValue page value < 2 ^ 64 := by
  have h32 : value % 2 ^ 32 < 2 ^ 32 := Nat.mod_lt _ (by norm_num)
  match page with
  | 0 => exact lt_trans h32 (by norm_num)
  | 1 =>
    show value % 2 ^ 32 * 2 ^ 32 < 2 ^ 64
    calc value % 2 ^ 32 * 2 ^ 32 < 2 ^ 32 * 2 ^ 32 :=
          (Nat.mul_lt_mul_right (by norm_num)).mpr h32
      _ = 2 ^ 64 := by norm_num
  | n + 2 => exact Nat.pos_pow_of_pos _ (by norm_num)

/-- C7.  For a feature-ack request on page 0 or 1 (acked features so far
being a subset of the advertised ones, as they always are from `Console::new`
onward): no requested bit outside `avail_features` ends up set in
`acked_features`, every requested bit inside `avail_features` ends up set,
and no previously acknowledged bit is ever cleared. -/
theorem c7_ack_features (acked page value i : Nat)
    (hp : page = 0 ∨ page = 1)
    (hsub : acked ||| avail_features = avail_features) :
    ((pageValue page value).testBit i = true → avail_features.testBit i = false →
      (ack_features acked page value).testBit i = false) ∧
    ((pageValue page value).testBit i = true → avail_features.testBit i = true →
      (ack_features acked page value).testBit i = true) ∧
    (acked.testBit i = true → (ack_features acked page value).testBit i = true) := by
  clear hp
  have hv64 : pageValue page value < 2 ^ 64 := pageValue_lt page value
  have hacked : acked.testBit i = true → avail_features.testBit i = true := by
    intro h
    have := congrArg (fun n => Nat.testBit n i) hsub
    simpa [Nat.testBit_lor, h] using this
  simp only [ack_features]
  by_cases hz : pageValue page value &&& compl64 avail_features = 0
  · rw [if_neg (by simpa using hz)]
    refine ⟨?_, ?_, ?_⟩
    · intro hvi hai
      have := congrArg (fun n => Nat.testBit n i) hz
      simp only [land_compl64_testBit _ _ hv64, hvi, hai, Nat.zero_testBit] at this
      cases this
    · intro hvi _
      simp [Nat.testBit_lor, hvi]
    · intro h
      simp [Nat.testBit_lor, h]
  · rw [if_pos (by simpa using hz)]
    have hun64 : pageValue page value &&& compl64 avail_features < 2 ^ 64 :=
      lt_of_le_of_lt Nat.and_le_left hv64
    refine ⟨?_, ?_, ?_⟩
    · intro hvi hai
      have h1 : (pageValue page value &&& compl64 avail_features).testBit i = true := by
        rw [land_compl64_testBit _ _ hv64, hvi, hai]
        rfl
      have hna : acked.testBit i = false := by
        by_contra hc
        rw [Bool.not_eq_false] at hc
        rw [hacked hc] at hai
        cases hai
      rw [Nat.testBit_lor, hna, land_compl64_testBit _ _ hv64, h1]
      simp
    · intro hvi hai
      have h1 : (pageValue page value &&& compl64 avail_features).testBit i = false := by
        rw [land_compl64_testBit _ _ hv64, hvi, hai]
        rfl
      rw [Nat.testBit_lor, land_compl64_testBit _ _ hv64, h1, hvi]
      simp
    · intro h
      simp [Nat.testBit_lor, h]

/-- Closed witness for `c7_ack_features`: requesting bit 5 (not advertised)
on page 0 leaves it clear, requesting bit 32 (advertised) via page 1 sets
it, and a previously acknowledged bit 32 survives any later ack. -/
theorem c7_witness :
    (ack_features 0 0 (2 ^ 5)).testBit 5 = false ∧
    (ack_features 0 1 1).testBit 32 = true ∧
    (ack_features (2 ^ 32) 0 7).testBit 32 = true :=
  ⟨(c7_ack_features 0 0 (2 ^ 5) 5 (Or.inl rfl) (by decide)).1 (by decide) (by decide),
   (c7_ack_features 0 1 1 32 (Or.inr rfl) (by decide)).2.1 (by decide) (by decide),
   (c7_ack_features (2 ^ 32) 0 7 32 (Or.inl rfl) (by decide)).2.2 (by decide)⟩

/-- C9.  In the event loop: a receive-queue-kick (`INPUT_QUEUE_EVENT = 0`)
only drains its notification — it never runs a processor, never signals, and
leaves the buffer unchanged; the receive processor runs only on the
input-ready event (`INPUT_EVENT = 2`); and the interrupt signaller is
invoked only when that receive-processor invocation reported at least one
chain consumed. -/
theorem c9_dispatch (wr : Nat → Nat → Bool) (rd : Nat → Nat → List Nat)
    (evtReadOk signalOk : Bool) (inBuffer : List Nat)
    (recvChains transChains : List DescChain) :
    dispatchEvent wr rd evtReadOk signalOk inBuffer recvChains transChains 0 =
      some (⟨false, false, false, !evtReadOk⟩, inBuffer) ∧
    (∀ (ev : Nat) (e : DispatchEffects) (b : List Nat),
      dispatchEvent wr rd evtReadOk signalOk inBuffer recvChains transChains ev =
        some (e, b) → e.ranInputProc = true → ev = 2) ∧
    (∀ (ev : Nat) (e : DispatchEffects) (b : List Nat),
      dispatchEvent wr rd evtReadOk signalOk inBuffer recvChains transChains ev =
        some (e, b) → e.signalled = true →
      ev = 2 ∧ ∃ r, process_input_queue wr inBuffer recvChains = some r ∧ r.ret = true) := by
  have main : ∀ (ev : Nat) (e : DispatchEffects) (b : List Nat),
      dispatchEvent wr rd evtReadOk signalOk inBuffer recvChains transChains ev =
        some (e, b) →
      (e.ranInputProc = true → ev = 2) ∧
      (e.signalled = true →
        ev = 2 ∧ ∃ r, process_input_queue wr inBuffer recvChains = some r ∧ r.ret = true) := by
    intro ev e b h
    match ev with
    | 0 =>
      simp only [dispatchEvent, Option.some.injEq, Prod.mk.injEq] at h
      rw [← h.1]
      simp
    | 1 =>
      simp only [dispatchEvent] at h
      by_cases hro : evtReadOk = true
      · rw [if_pos hro] at h
        split at h
        · cases h
        · simp only [Option.some.injEq, Prod.mk.injEq] at h
          rw [← h.1]
          simp
      · rw [if_neg hro] at h
        simp only [Option.some.injEq, Prod.mk.injEq] at h
        rw [← h.1]
        simp
    | 2 =>
      refine ⟨fun _ => rfl, fun hs => ⟨rfl, ?_⟩⟩
      simp only [dispatchEvent] at h
      by_cases hro : evtReadOk = true
      · rw [if_pos hro] at h
        split at h
        · cases h
        · rename_i r hpi
          by_cases hret : r.ret = true
          · exact ⟨r, hpi, hret⟩
          · rw [if_neg hret] at h
            simp only [Option.some.injEq, Prod.mk.injEq] at h
            rw [← h.1] at hs
            cases hs
      · rw [if_neg hro] at h
        simp only [Option.some.injEq, Prod.mk.injEq] at h
        rw [← h.1] at hs
        cases hs
    | 3 =>
      simp only [dispatchEvent, Option.some.injEq, Prod.mk.injEq] at h
      rw [← h.1]
      simp
    | n + 4 =>
      simp only [dispatchEvent, Option.some.injEq, Prod.mk.injEq] at h
      rw [← h.1]
      simp
  refine ⟨by cases evtReadOk <;> rfl, ?_, ?_⟩
  · intro ev e b h
    exact (main ev e b h).1
  · intro ev e b h
    exact (main ev e b h).2

/-- Closed witness for `c9_dispatch`: with one receive chain and one
buffered byte, the input-ready arm signals, and the signalling implies the
processor reported a consumed chain. -/
theorem c9_witness :
    dispatchEvent (fun _ _ => true) (fun _ _ => []) true true [7] [⟨0, 0, 1⟩] [] 0 =
      some (⟨false, false, false, false⟩, [7]) ∧
    (∃ r, process_input_queue (fun _ _ => true) [7] [⟨0, 0, 1⟩] = some r ∧ r.ret = true) :=
  ⟨(c9_dispatch (fun _ _ => true) (fun _ _ => []) true true [7] [⟨0, 0, 1⟩] []).1,
   ((c9_dispatch (fun _ _ => true) (fun _ _ => []) true true [7] [⟨0, 0, 1⟩] []).2.2 2
      ⟨true, false, true, false⟩ [] (by decide) rfl).2⟩

end Console
